import Mathlib

/-!
Verification of the SnapshillBot archival bot (snapshill.py) against its
natural-language specification.

The development shallowly embeds the pure parts of `snapshill.py` into Lean:
  * the three regular expressions `REDDIT_PATTERN`, `SUBREDDIT_OR_USER`
    and `PLAIN_SUBREDDIT_OR_USER`, as executable backtracking matchers
    over `List Char` (faithful to Python `re` semantics for these
    particular patterns: leftmost scanning, alternatives tried in order,
    greedy optionals with backtracking);
  * `fix_url` and `skip_url`;
  * the notification posting logic `Notification.notify` (with the
    network calls turned into explicit call-outcome parameters) and the
    comment renderer `Notification._build`;
  * `ArchiveOrgArchive.archive`, the per-item dedup query
    `Post.should_notify`, the body-link extraction loop of
    `Snapshill.run`, and the `Header` text pool.

Python exceptions are modelled with `Except PyErr`; a Python-level
`None`/`False`/`str` archive result is the inductive `Archived`.
-/

namespace Snapshill

/-- Kinds of Python exceptions raised by the embedded code. -/
inductive PyErr
  | nameError (missing : String)
  | typeError (message : String)
  | exception (message : String)
  deriving Repr, DecidableEq

/-! ### The regular expression `REDDIT_PATTERN`

`REDDIT_PATTERN = https?://(([A-z]{2})(-[A-z]{2})?|beta|i|m|pay|ssl|www)\.?reddit\.com`

`matchLen? cs` returns the length of the (unique, see `matchLen?_eq_some_iff`)
match of `REDDIT_PATTERN` starting at the head of `cs`, or `none`.  The
implementation follows the backtracking engine: alternatives in written
order, the optional groups tried greedily first. -/

/-- The character class `[A-z]` (ASCII 65 to 122: it also contains the
six punctuation characters between the upper and lower case letters). -/
def isAZ (c : Char) : Bool := 'A' ≤ c && c ≤ 'z'

/-- Strip a literal from the front of the input, returning the rest. -/
def stripPfx? : List Char → List Char → Option (List Char)
  | [], cs => some cs
  | _ :: _, [] => none
  | p :: ps, c :: cs => if p = c then stripPfx? ps cs else none

/-- The literal `reddit.com` tail of `REDDIT_PATTERN`. -/
def redditDotCom : List Char := "reddit.com".data

/-- Match `\.?reddit\.com` at the head of the input (greedy optional dot
first, then the backtracked alternative); returns consumed length. -/
def tailDotReddit? (cs : List Char) : Option Nat :=
  (match cs with
   | '.' :: rest => if (stripPfx? redditDotCom rest).isSome then some 11 else none
   | _ => none) <|>
  (if (stripPfx? redditDotCom cs).isSome then some 10 else none)

/-- One literal alternative (`beta`, `i`, ...) followed by `\.?reddit\.com`. -/
def litTail? (k : List Char) (cs : List Char) : Option Nat :=
  match stripPfx? k cs with
  | some rest => (tailDotReddit? rest).map (· + k.length)
  | none => none

/-- The optional group `(-[A-z]{2})?` taken (followed by `\.?reddit\.com`). -/
def dashTail? (rest : List Char) : Option Nat :=
  match rest with
  | '-' :: c :: d :: rest2 =>
    if isAZ c && isAZ d then (tailDotReddit? rest2).map (· + 5) else none
  | _ => none

/-- The first alternative `([A-z]{2})(-[A-z]{2})?` followed by
`\.?reddit\.com` (the optional `-[A-z]{2}` group greedy first). -/
def pairTail? (cs : List Char) : Option Nat :=
  match cs with
  | a :: b :: rest =>
    if isAZ a && isAZ b then dashTail? rest <|> (tailDotReddit? rest).map (· + 2)
    else none
  | _ => none

/-- The whole group alternation of `REDDIT_PATTERN` followed by
`\.?reddit\.com`, alternatives in the order written in the pattern. -/
def altTail? (cs : List Char) : Option Nat :=
  pairTail? cs <|> litTail? "beta".data cs <|> litTail? "i".data cs <|>
    litTail? "m".data cs <|> litTail? "pay".data cs <|> litTail? "ssl".data cs <|>
    litTail? "www".data cs

/-- The branch of `https?` that consumes the optional `s` (tried first,
greedy), then `://` and the group. -/
def schemeS? (cs1 : List Char) : Option Nat :=
  match cs1 with
  | 's' :: r =>
    match stripPfx? "://".data r with
    | some cs2 => (altTail? cs2).map (· + 8)
    | none => none
  | _ => none

/-- The branch of `https?` that skips the `s`. -/
def schemeNoS? (cs1 : List Char) : Option Nat :=
  match stripPfx? "://".data cs1 with
  | some cs2 => (altTail? cs2).map (· + 7)
  | none => none

/-- Length of the `REDDIT_PATTERN` match at the head of `cs`, if any
(`https?` with the `s` tried greedily first). -/
def matchLen? (cs : List Char) : Option Nat :=
  match stripPfx? "http".data cs with
  | none => none
  | some cs1 => schemeS? cs1 <|> schemeNoS? cs1

/-! ### Declarative characterization of `REDDIT_PATTERN` matches -/

/-- The six literal alternatives of the group. -/
def altLits : List (List Char) :=
  ["beta".data, "i".data, "m".data, "pay".data, "ssl".data, "www".data]

/-- The language of the group alternation
`([A-z]{2})(-[A-z]{2})?|beta|i|m|pay|ssl|www`. -/
def AltOK (A : List Char) : Prop :=
  A ∈ altLits ∨
    (∃ a b, isAZ a = true ∧ isAZ b = true ∧ A = [a, b]) ∨
    (∃ a b c d, isAZ a = true ∧ isAZ b = true ∧ isAZ c = true ∧ isAZ d = true ∧
      A = [a, b, '-', c, d])

/-- The language of full `REDDIT_PATTERN` matches. -/
def MatchL (m : List Char) : Prop :=
  ∃ S A D, (S = "http://".data ∨ S = "https://".data) ∧ AltOK A ∧
    (D = [] ∨ D = ['.']) ∧ m = S ++ A ++ D ++ redditDotCom

theorem stripPfx?_eq_some {p cs r : List Char} :
    stripPfx? p cs = some r ↔ cs = p ++ r := by
  induction p generalizing cs with
  | nil => cases cs <;> simp [stripPfx?]
  | cons a ps ih =>
    cases cs with
    | nil => simp [stripPfx?]
    | cons c cs' =>
      by_cases h : a = c
      · subst h
        simp [stripPfx?, ih]
      · simp only [stripPfx?, if_neg h]
        constructor
        · intro hh
          exact absurd hh (by simp)
        · intro hh
          exact absurd (List.head_eq_of_cons_eq hh).symm h

theorem orElse_eq_some {α : Type} {a b : Option α} {c : α} :
    (a <|> b) = some c ↔ a = some c ∨ (a = none ∧ b = some c) := by
  cases a <;> simp [HOrElse.hOrElse, OrElse.orElse, Option.orElse]

theorem orElse_eq_none {α : Type} {a b : Option α} :
    (a <|> b) = none ↔ a = none ∧ b = none := by
  cases a <;> simp [HOrElse.hOrElse, OrElse.orElse, Option.orElse]

theorem stripPfx?_self_append (p t : List Char) : stripPfx? p (p ++ t) = some t :=
  stripPfx?_eq_some.mpr rfl

theorem tailDotReddit?_sound {cs : List Char} {n : Nat}
    (h : tailDotReddit? cs = some n) :
    ∃ D t, ((D = [] ∧ n = 10) ∨ (D = ['.'] ∧ n = 11)) ∧
      cs = D ++ redditDotCom ++ t := by
  unfold tailDotReddit? at h
  rw [orElse_eq_some] at h
  rcases h with h | ⟨-, h⟩
  · split at h
    · rename_i rest
      split at h
      · rename_i hs
        rcases Option.isSome_iff_exists.mp hs with ⟨r, hr⟩
        have hrest := stripPfx?_eq_some.mp hr
        exact ⟨['.'], r, Or.inr ⟨rfl, (Option.some.injEq _ _ ▸ h).symm⟩, by simp [hrest]⟩
      · exact absurd h (by simp)
    · exact absurd h (by simp)
  · split at h
    · rename_i hs
      rcases Option.isSome_iff_exists.mp hs with ⟨r, hr⟩
      have hcs := stripPfx?_eq_some.mp hr
      exact ⟨[], r, Or.inl ⟨rfl, (Option.some.injEq _ _ ▸ h).symm⟩, by simp [hcs]⟩
    · exact absurd h (by simp)

theorem tailDotReddit?_complete (D t : List Char) (hD : D = [] ∨ D = ['.']) :
    tailDotReddit? (D ++ (redditDotCom ++ t)) = some (D.length + 10) := by
  rcases hD with h | h <;> subst h <;> rfl

theorem redditDotCom_cons : redditDotCom = 'r' :: "eddit.com".data := rfl

theorem none_orElse {α : Type} (x : Option α) : (none <|> x) = x := by
  cases x <;> rfl

theorem orElse_isSome {α : Type} (a b : Option α) :
    (a <|> b).isSome = (a.isSome || b.isSome) := by
  cases a <;> rfl

theorem litTail?_sound {k cs : List Char} {n : Nat} (h : litTail? k cs = some n) :
    ∃ D t, (D = [] ∨ D = ['.']) ∧ cs = k ++ (D ++ (redditDotCom ++ t)) ∧
      n = k.length + D.length + 10 := by
  unfold litTail? at h
  split at h
  · rename_i rest hrest
    rcases Option.map_eq_some'.mp h with ⟨j, hj, hn⟩
    rcases tailDotReddit?_sound hj with ⟨D, t, hD, hrest'⟩
    have hcs := stripPfx?_eq_some.mp hrest
    refine ⟨D, t, ?_, ?_, ?_⟩
    · rcases hD with ⟨h1, -⟩ | ⟨h1, -⟩ <;> simp [h1]
    · rw [hcs, hrest']; simp
    · rcases hD with ⟨h1, h2⟩ | ⟨h1, h2⟩ <;> subst h1 <;> simp <;> omega
  · exact absurd h (by simp)

theorem dashTail?_eq_none {rest : List Char} (h : rest.head? ≠ some '-') :
    dashTail? rest = none := by
  unfold dashTail?
  split
  · rename_i c d rest2
    simp at h
  · rfl

theorem pairTail?_sound {cs : List Char} {n : Nat} (h : pairTail? cs = some n) :
    ∃ A D t, AltOK A ∧ (D = [] ∨ D = ['.']) ∧ cs = A ++ (D ++ (redditDotCom ++ t)) ∧
      n = A.length + D.length + 10 := by
  unfold pairTail? at h
  split at h
  · rename_i a b rest
    split at h
    · rename_i hab
      rw [orElse_eq_some] at h
      rcases h with h | ⟨-, h⟩
      · unfold dashTail? at h
        split at h
        · rename_i c d rest2
          split at h
          · rename_i hcd
            rcases Option.map_eq_some'.mp h with ⟨j, hj, hn⟩
            rcases tailDotReddit?_sound hj with ⟨D, t, hD, hrest2⟩
            refine ⟨[a, b, '-', c, d], D, t,
              Or.inr (Or.inr ⟨a, b, c, d, ?_, ?_, ?_, ?_, rfl⟩), ?_, ?_, ?_⟩
            · exact (Bool.and_eq_true _ _ ▸ hab).1
            · exact (Bool.and_eq_true _ _ ▸ hab).2
            · exact (Bool.and_eq_true _ _ ▸ hcd).1
            · exact (Bool.and_eq_true _ _ ▸ hcd).2
            · rcases hD with ⟨h1, -⟩ | ⟨h1, -⟩ <;> simp [h1]
            · rw [hrest2]; simp
            · rcases hD with ⟨h1, h2⟩ | ⟨h1, h2⟩ <;> subst h1 <;> simp <;> omega
          · exact absurd h (by simp)
        · exact absurd h (by simp)
      · rcases Option.map_eq_some'.mp h with ⟨j, hj, hn⟩
        rcases tailDotReddit?_sound hj with ⟨D, t, hD, hrest⟩
        refine ⟨[a, b], D, t,
          Or.inr (Or.inl ⟨a, b, (Bool.and_eq_true _ _ ▸ hab).1,
            (Bool.and_eq_true _ _ ▸ hab).2, rfl⟩), ?_, ?_, ?_⟩
        · rcases hD with ⟨h1, -⟩ | ⟨h1, -⟩ <;> simp [h1]
        · rw [hrest]; simp
        · rcases hD with ⟨h1, h2⟩ | ⟨h1, h2⟩ <;> subst h1 <;> simp <;> omega
    · exact absurd h (by simp)
  · exact absurd h (by simp)

theorem altTail?_sound {cs : List Char} {n : Nat} (h : altTail? cs = some n) :
    ∃ A D t, AltOK A ∧ (D = [] ∨ D = ['.']) ∧ cs = A ++ (D ++ (redditDotCom ++ t)) ∧
      n = A.length + D.length + 10 := by
  unfold altTail? at h
  rw [orElse_eq_some] at h
  rcases h with h | ⟨-, h⟩
  · exact pairTail?_sound h
  · rw [orElse_eq_some] at h
    rcases h with h | ⟨-, h⟩ <;>
      [skip;
       (rw [orElse_eq_some] at h
        rcases h with h | ⟨-, h⟩ <;>
          [skip;
           (rw [orElse_eq_some] at h
            rcases h with h | ⟨-, h⟩ <;>
              [skip;
               (rw [orElse_eq_some] at h
                rcases h with h | ⟨-, h⟩ <;>
                  [skip;
                   (rw [orElse_eq_some] at h
                    rcases h with h | ⟨-, h⟩)])])])] <;>
    · rcases litTail?_sound h with ⟨D, t, hD, hcs, hn⟩
      exact ⟨_, D, t, Or.inl (by simp [altLits]), hD, hcs, hn⟩

theorem dataBeta : "beta".data = ['b', 'e', 't', 'a'] := rfl

theorem dataLitI : "i".data = ['i'] := rfl

theorem dataLitM : "m".data = ['m'] := rfl

theorem dataPay : "pay".data = ['p', 'a', 'y'] := rfl

theorem dataSsl : "ssl".data = ['s', 's', 'l'] := rfl

theorem dataWww : "www".data = ['w', 'w', 'w'] := rfl

theorem litTail?_complete (k D t : List Char) (hD : D = [] ∨ D = ['.']) :
    litTail? k (k ++ (D ++ (redditDotCom ++ t))) = some (D.length + 10 + k.length) := by
  unfold litTail?
  rw [stripPfx?_self_append]
  show (tailDotReddit? (D ++ (redditDotCom ++ t))).map (· + k.length) = _
  rw [tailDotReddit?_complete D t hD]
  rfl

theorem pairTail?_cons (a b : Char) (rest : List Char) :
    pairTail? (a :: b :: rest) =
      if isAZ a && isAZ b then dashTail? rest <|> (tailDotReddit? rest).map (· + 2)
      else none := rfl

theorem pairTail?_complete2 (a b : Char) (D t : List Char)
    (ha : isAZ a = true) (hb : isAZ b = true) (hD : D = [] ∨ D = ['.']) :
    pairTail? ([a, b] ++ (D ++ (redditDotCom ++ t))) = some (D.length + 10 + 2) := by
  show pairTail? (a :: b :: (D ++ (redditDotCom ++ t))) = _
  rw [pairTail?_cons, if_pos (by simp [ha, hb])]
  rw [dashTail?_eq_none (by rcases hD with h | h <;> subst h <;> simp [redditDotCom_cons])]
  rw [none_orElse, tailDotReddit?_complete D t hD]
  rfl

theorem dashTail?_cons (c d : Char) (rest2 : List Char) :
    dashTail? ('-' :: c :: d :: rest2) =
      if isAZ c && isAZ d then (tailDotReddit? rest2).map (· + 5) else none := rfl

theorem pairTail?_complete5 (a b c d : Char) (D t : List Char)
    (ha : isAZ a = true) (hb : isAZ b = true) (hc : isAZ c = true) (hd : isAZ d = true)
    (hD : D = [] ∨ D = ['.']) :
    pairTail? ([a, b, '-', c, d] ++ (D ++ (redditDotCom ++ t))) = some (D.length + 10 + 5) := by
  show pairTail? (a :: b :: '-' :: c :: d :: (D ++ (redditDotCom ++ t))) = _
  rw [pairTail?_cons, if_pos (by simp [ha, hb])]
  rw [orElse_eq_some]
  left
  rw [dashTail?_cons, if_pos (by simp [hc, hd]), tailDotReddit?_complete D t hD]
  rfl

theorem altTail?_complete {A : List Char} (D t : List Char)
    (hA : AltOK A) (hD : D = [] ∨ D = ['.']) :
    (altTail? (A ++ (D ++ (redditDotCom ++ t)))).isSome = true := by
  unfold altTail?
  simp only [orElse_isSome, Bool.or_eq_true]
  rcases hA with hA | ⟨a, b, ha, hb, rfl⟩ | ⟨a, b, c, d, ha, hb, hc, hd, rfl⟩
  · simp only [altLits, List.mem_cons, List.not_mem_nil, or_false] at hA
    rcases hA with rfl | rfl | rfl | rfl | rfl | rfl
    · have h1 := litTail?_complete "beta".data D t hD
      simp only [dataBeta, List.cons_append, List.nil_append] at h1
      simp [h1]
    · have h1 := litTail?_complete "i".data D t hD
      simp only [dataLitI, List.cons_append, List.nil_append] at h1
      simp [h1]
    · have h1 := litTail?_complete "m".data D t hD
      simp only [dataLitM, List.cons_append, List.nil_append] at h1
      simp [h1]
    · have h1 := litTail?_complete "pay".data D t hD
      simp only [dataPay, List.cons_append, List.nil_append] at h1
      simp [h1]
    · have h1 := litTail?_complete "ssl".data D t hD
      simp only [dataSsl, List.cons_append, List.nil_append] at h1
      simp [h1]
    · have h1 := litTail?_complete "www".data D t hD
      simp only [dataWww, List.cons_append, List.nil_append] at h1
      simp [h1]
  · have h1 := pairTail?_complete2 a b D t ha hb hD
    simp only [List.cons_append, List.nil_append] at h1
    simp [h1]
  · have h1 := pairTail?_complete5 a b c d D t ha hb hc hd hD
    simp only [List.cons_append, List.nil_append] at h1
    simp [h1]

theorem dataHttp : "http".data = ['h', 't', 't', 'p'] := rfl

theorem dataColSlashes : "://".data = [':', '/', '/'] := rfl

theorem dataHttpSlash : "http://".data = ['h', 't', 't', 'p', ':', '/', '/'] := rfl

theorem dataHttpsSlash : "https://".data = ['h', 't', 't', 'p', 's', ':', '/', '/'] := rfl

theorem dataRedditDotCom :
    redditDotCom = ['r', 'e', 'd', 'd', 'i', 't', '.', 'c', 'o', 'm'] := rfl

theorem matchLen?_sound {cs : List Char} {n : Nat} (h : matchLen? cs = some n) :
    ∃ m t, MatchL m ∧ m.length = n ∧ cs = m ++ t := by
  unfold matchLen? at h
  split at h
  · exact absurd h (by simp)
  · rename_i cs1 hstrip
    have hcs := stripPfx?_eq_some.mp hstrip
    rw [orElse_eq_some] at h
    rcases h with h | ⟨-, h⟩
    · unfold schemeS? at h
      split at h
      · rename_i r
        split at h
        · rename_i cs2 hr
          have hrr := stripPfx?_eq_some.mp hr
          rcases Option.map_eq_some'.mp h with ⟨j, hj, hn⟩
          rcases altTail?_sound hj with ⟨A, D, t, hA, hD, hcs2, hj'⟩
          refine ⟨"https://".data ++ A ++ D ++ redditDotCom, t,
            ⟨"https://".data, A, D, Or.inr rfl, hA, hD, rfl⟩, ?_, ?_⟩
          · subst hn
            subst hj'
            rcases hD with rfl | rfl <;>
              simp [dataHttpsSlash, List.length_append, dataRedditDotCom]
          · rw [hcs, hrr, hcs2]
            simp [dataHttp, dataHttpsSlash, dataColSlashes, List.append_assoc]
        · exact absurd h (by simp)
      · exact absurd h (by simp)
    · unfold schemeNoS? at h
      split at h
      · rename_i cs2 hr
        have hrr := stripPfx?_eq_some.mp hr
        rcases Option.map_eq_some'.mp h with ⟨j, hj, hn⟩
        rcases altTail?_sound hj with ⟨A, D, t, hA, hD, hcs2, hj'⟩
        refine ⟨"http://".data ++ A ++ D ++ redditDotCom, t,
          ⟨"http://".data, A, D, Or.inl rfl, hA, hD, rfl⟩, ?_, ?_⟩
        · subst hn
          subst hj'
          rcases hD with rfl | rfl <;>
            simp [dataHttpSlash, List.length_append, dataRedditDotCom]
        · rw [hcs, hrr, hcs2]
          simp [dataHttp, dataHttpSlash, dataColSlashes, List.append_assoc]
      · exact absurd h (by simp)

theorem schemeS?_cons_s (r : List Char) :
    schemeS? ('s' :: r) =
      match stripPfx? "://".data r with
      | some cs2 => (altTail? cs2).map (· + 8)
      | none => none := rfl

theorem matchLen?_complete {m : List Char} (t : List Char) (hm : MatchL m) :
    (matchLen? (m ++ t)).isSome = true := by
  rcases hm with ⟨S, A, D, hS, hA, hD, rfl⟩
  have hcore := altTail?_complete (A := A) D t hA hD
  rcases hS with rfl | rfl
  · have hrw : ("http://".data ++ A ++ D ++ redditDotCom) ++ t =
        "http".data ++ ("://".data ++ (A ++ (D ++ (redditDotCom ++ t)))) := by
      simp [dataHttp, dataHttpSlash, dataColSlashes, List.append_assoc]
    rw [hrw]
    unfold matchLen?
    rw [stripPfx?_self_append]
    show (schemeS? ("://".data ++ (A ++ (D ++ (redditDotCom ++ t)))) <|>
      schemeNoS? ("://".data ++ (A ++ (D ++ (redditDotCom ++ t))))).isSome = true
    rw [orElse_isSome]
    have h2 : (schemeNoS? ("://".data ++ (A ++ (D ++ (redditDotCom ++ t))))).isSome = true := by
      unfold schemeNoS?
      rw [stripPfx?_self_append]
      simpa using hcore
    simp only [dataColSlashes, List.cons_append, List.nil_append] at h2
    simp [h2]
  · have hrw : ("https://".data ++ A ++ D ++ redditDotCom) ++ t =
        "http".data ++ ('s' :: ("://".data ++ (A ++ (D ++ (redditDotCom ++ t))))) := by
      simp [dataHttp, dataHttpsSlash, dataColSlashes, List.append_assoc]
    rw [hrw]
    unfold matchLen?
    rw [stripPfx?_self_append]
    show (schemeS? ('s' :: ("://".data ++ (A ++ (D ++ (redditDotCom ++ t))))) <|>
      schemeNoS? ('s' :: ("://".data ++ (A ++ (D ++ (redditDotCom ++ t)))))).isSome = true
    rw [orElse_isSome]
    have h2 : (schemeS? ('s' :: ("://".data ++ (A ++ (D ++ (redditDotCom ++ t)))))).isSome = true := by
      rw [schemeS?_cons_s, stripPfx?_self_append]
      simpa using hcore
    simp only [dataColSlashes, List.cons_append, List.nil_append] at h2
    simp [h2]

/-! ### The canonical replacement string and `re.sub` scanning

`fix_url` rewrites every `REDDIT_PATTERN` occurrence to the canonical
host `http://www.reddit.com`; `subScan` is the left-to-right,
non-overlapping scan-and-replace loop of `re.sub`. -/

/-- The replacement string `http://www.reddit.com` as characters. -/
def canonL : List Char := "http://www.reddit.com".data

theorem canonL_cons :
    canonL = ['h', 't', 't', 'p', ':', '/', '/', 'w', 'w', 'w', '.',
      'r', 'e', 'd', 'd', 'i', 't', '.', 'c', 'o', 'm'] := rfl

theorem canonL_matchL : MatchL canonL :=
  ⟨"http://".data, "www".data, ['.'], Or.inl rfl, Or.inl (by simp [altLits]),
    Or.inr rfl, rfl⟩

theorem matchLen?_canon (xs : List Char) : matchLen? (canonL ++ xs) = some 21 := rfl

theorem getLast?_append_ne {l1 l2 : List Char} {x : Char}
    (h : l2.getLast? = some x) : (l1 ++ l2).getLast? = some x := by
  rw [List.getLast?_append, h]
  rfl

theorem AltOK_ne_nil {A : List Char} (hA : AltOK A) : A ≠ [] := by
  rcases hA with hA | ⟨a, b, -, -, rfl⟩ | ⟨a, b, c, d, -, -, -, -, rfl⟩
  · simp only [altLits, List.mem_cons, List.not_mem_nil, or_false] at hA
    rcases hA with rfl | rfl | rfl | rfl | rfl | rfl <;> simp
  · simp
  · simp

theorem isAZ_ne_dot {c : Char} (h : isAZ c = true) : c ≠ '.' := by
  intro hc
  subst hc
  simp [isAZ] at h

theorem isAZ_ne_slash {c : Char} (h : isAZ c = true) : c ≠ '/' := by
  intro hc
  subst hc
  simp [isAZ] at h

theorem AltOK_getLast_ne_dot {A : List Char} (hA : AltOK A) :
    A.getLast? ≠ some '.' := by
  rcases hA with hA | ⟨a, b, ha, hb, rfl⟩ | ⟨a, b, c, d, ha, hb, hc, hd, rfl⟩
  · simp only [altLits, List.mem_cons, List.not_mem_nil, or_false] at hA
    rcases hA with rfl | rfl | rfl | rfl | rfl | rfl <;> simp
  · simpa using isAZ_ne_dot hb
  · simpa using isAZ_ne_dot hd

theorem MatchL_length {m : List Char} (hm : MatchL m) :
    18 ≤ m.length ∧ m.length ≤ 24 := by
  rcases hm with ⟨S, A, D, hS, hA, hD, rfl⟩
  have hs : S.length = 7 ∨ S.length = 8 := by rcases hS with rfl | rfl <;> simp
  have hd : D.length = 0 ∨ D.length = 1 := by rcases hD with rfl | rfl <;> simp
  have haa : 1 ≤ A.length ∧ A.length ≤ 5 := by
    rcases hA with hA | ⟨a, b, -, -, rfl⟩ | ⟨a, b, c, d, -, -, -, -, rfl⟩
    · simp only [altLits, List.mem_cons, List.not_mem_nil, or_false] at hA
      rcases hA with rfl | rfl | rfl | rfl | rfl | rfl <;> simp
    · simp
    · simp
  have hr : redditDotCom.length = 10 := rfl
  simp only [List.length_append, hr]
  omega

theorem MatchL_getLast {m : List Char} (hm : MatchL m) : m.getLast? = some 'm' := by
  rcases hm with ⟨S, A, D, hS, hA, hD, rfl⟩
  exact getLast?_append_ne (show redditDotCom.getLast? = some 'm' from rfl)

theorem matchLen?_ge {cs : List Char} {n : Nat} (h : matchLen? cs = some n) :
    18 ≤ n := by
  rcases matchLen?_sound h with ⟨m, t, hm, hlen, -⟩
  exact hlen ▸ (MatchL_length hm).1

theorem matchL_pf_canon {m xs t2 : List Char} (hm : MatchL m)
    (h : canonL ++ xs = m ++ t2) : m = canonL := by
  rcases hm with ⟨S, A, D, hS, hA, hD, rfl⟩
  rcases hA with hA | ⟨a, b, ha, hb, rfl⟩ | ⟨a, b, c, d, ha, hb, hc, hd, rfl⟩
  · simp only [altLits, List.mem_cons, List.not_mem_nil, or_false] at hA
    rcases hA with rfl | rfl | rfl | rfl | rfl | rfl <;>
      rcases hS with rfl | rfl <;> rcases hD with rfl | rfl <;>
      simp_all [canonL_cons, dataRedditDotCom, dataHttpSlash, dataHttpsSlash,
        dataBeta, dataLitI, dataLitM, dataPay, dataSsl, dataWww]
  · rcases hS with rfl | rfl <;> rcases hD with rfl | rfl <;>
      simp_all [canonL_cons, dataRedditDotCom, dataHttpSlash, dataHttpsSlash]
  · rcases hS with rfl | rfl <;> rcases hD with rfl | rfl <;>
      simp_all [canonL_cons, dataRedditDotCom, dataHttpSlash, dataHttpsSlash]

theorem matchLen?_nil : matchLen? [] = none := rfl

/-- The scan-and-replace loop of
`re.sub(REDDIT_PATTERN, "http://www.reddit.com", url)`: at each
position, if the pattern matches (for a length `n`), emit the
replacement and resume after the matched text, else copy one character.
A match found at `c :: rest` covers `c` and `n - 1` characters of
`rest` (`n ≥ 18` by `matchLen?_ge`, so `rest.drop (n - 1)` is exactly
the text after the match).  The `fuel` argument only bounds the
recursion depth so that the function is structurally recursive (and so
computable by the kernel); every step consumes at least one character,
so `fuel = cs.length` always suffices (`subScanGo_congr`). -/
def subScanGo : Nat → List Char → List Char
  | _, [] => []
  | 0, cs => cs
  | fuel + 1, c :: rest =>
    match matchLen? (c :: rest) with
    | some n => canonL ++ subScanGo fuel (rest.drop (n - 1))
    | none => c :: subScanGo fuel rest

/-- The scan of `re.sub` over the whole input. -/
def subScan (cs : List Char) : List Char := subScanGo cs.length cs

theorem subScanGo_nil (f : Nat) : subScanGo f [] = [] := by
  cases f <;> rfl

theorem subScanGo_succ_cons (f : Nat) (c : Char) (rest : List Char) :
    subScanGo (f + 1) (c :: rest) =
      match matchLen? (c :: rest) with
      | some n => canonL ++ subScanGo f (rest.drop (n - 1))
      | none => c :: subScanGo f rest := rfl

theorem subScanGo_congr :
    ∀ (N f g : Nat) (cs : List Char), cs.length ≤ N → cs.length ≤ f →
      cs.length ≤ g → subScanGo f cs = subScanGo g cs := by
  intro N
  induction N with
  | zero =>
    intro f g cs hN hf hg
    have hnil : cs = [] := List.length_eq_zero.mp (Nat.le_zero.mp hN)
    subst hnil
    rw [subScanGo_nil, subScanGo_nil]
  | succ N ih =>
    intro f g cs hN hf hg
    rcases cs with _ | ⟨c, rest⟩
    · rw [subScanGo_nil, subScanGo_nil]
    simp only [List.length_cons] at hN hf hg
    rcases f with _ | f'
    · omega
    rcases g with _ | g'
    · omega
    rw [subScanGo_succ_cons, subScanGo_succ_cons]
    rcases hm : matchLen? (c :: rest) with _ | n
    · exact congrArg (c :: ·) (ih f' g' rest (by omega) (by omega) (by omega))
    · refine congrArg (canonL ++ ·) ?_
      have hd : (rest.drop (n - 1)).length ≤ rest.length := by
        rw [List.length_drop]
        omega
      exact ih f' g' (rest.drop (n - 1)) (by omega) (by omega) (by omega)

theorem subScan_nil : subScan [] = [] := rfl

theorem subScan_cons_some {c : Char} {rest : List Char} {n : Nat}
    (h : matchLen? (c :: rest) = some n) :
    subScan (c :: rest) = canonL ++ subScan (rest.drop (n - 1)) := by
  show subScanGo (rest.length + 1) (c :: rest) = _
  rw [subScanGo_succ_cons, h]
  refine congrArg (canonL ++ ·) ?_
  refine subScanGo_congr rest.length rest.length (rest.drop (n - 1)).length
    (rest.drop (n - 1)) ?_ ?_ (Nat.le_refl _) <;>
    rw [List.length_drop] <;> omega

theorem subScan_cons_none {c : Char} {rest : List Char}
    (h : matchLen? (c :: rest) = none) :
    subScan (c :: rest) = c :: subScan rest := by
  show subScanGo (rest.length + 1) (c :: rest) = _
  rw [subScanGo_succ_cons, h]
  rfl

theorem dataHttpWwwDot :
    "http://www.".data = ['h', 't', 't', 'p', ':', '/', '/', 'w', 'w', 'w', '.'] := rfl

theorem canonL_split : canonL = "http://www.".data ++ redditDotCom := rfl

/-- Key no-new-match lemma: if the pattern does not match at the start of
`a ++ q` (`a` nonempty), then it does not match at the start of
`a ++ (canonL ++ w)` either: a match there would have to reach into the
replacement text, and no suffix of a pattern match can line up with a
prefix of `http://www.reddit.com` unless the match is the whole
replacement starting exactly at it. -/
theorem matchLen?_bound {a q w : List Char} (ha : a ≠ [])
    (hq : matchLen? (a ++ q) = none) : matchLen? (a ++ (canonL ++ w)) = none := by
  rcases hmc : matchLen? (a ++ (canonL ++ w)) with _ | n
  · rfl
  exfalso
  rcases matchLen?_sound hmc with ⟨m, t, hm, hlen, heq⟩
  by_cases hle : m.length ≤ a.length
  · -- the match would fit inside `a`, so it would match in `a ++ q` too
    have h1 : (m ++ t).take m.length = m := List.take_left m t
    have h2 : (a ++ (canonL ++ w)).take m.length = a.take m.length :=
      List.take_append_of_le_length hle
    rw [← heq] at h1
    rw [h2] at h1
    have ha2 : a = m ++ a.drop m.length := by
      conv_lhs => rw [← List.take_append_drop m.length a]
      rw [h1]
    have h3 := matchLen?_complete (a.drop m.length ++ q) hm
    rw [ha2, List.append_assoc] at hq
    rw [hq] at h3
    simp at h3
  · push_neg at hle
    have h1 : (a ++ (canonL ++ w)).take a.length = a := List.take_left a _
    rw [heq] at h1
    rw [List.take_append_of_le_length (Nat.le_of_lt hle)] at h1
    -- h1 : m.take a.length = a
    have hmz : m = a ++ m.drop a.length := by
      conv_lhs => rw [← List.take_append_drop a.length m]
      rw [h1]
    set z := m.drop a.length with hzdef
    have hzlen : z.length = m.length - a.length := List.length_drop _ _
    have hzne : z ≠ [] := by
      intro hznil
      rw [hznil] at hzlen
      simp at hzlen
      omega
    have hzt : z ++ t = canonL ++ w := by
      have h4 : a ++ (z ++ t) = a ++ (canonL ++ w) := by
        rw [← List.append_assoc, ← hmz, heq]
      exact List.append_cancel_left h4
    have hlast : z.getLast? = some 'm' := by
      have hml := MatchL_getLast hm
      rw [hmz, List.getLast?_append] at hml
      cases hzl : z.getLast? with
      | none => exact absurd (List.getLast?_eq_none_iff.mp hzl) hzne
      | some x =>
        rw [hzl] at hml
        simpa [Option.or] using hml
    by_cases hz21 : z.length ≤ 21
    · -- z is a nonempty prefix of canonL ending in 'm', hence z = canonL
      have hzc : z = canonL.take z.length := by
        have h4 : (z ++ t).take z.length = z := List.take_left z t
        rw [hzt, List.take_append_of_le_length (by rw [canonL_cons]; simpa using hz21)] at h4
        exact h4.symm
      have hz21' : z.length = 21 := by
        have hfin : ∀ ℓ : Fin 22,
            ((canonL.take ℓ.val).getLast? = some 'm') → ℓ.val = 21 := by decide
        have hlt : z.length < 22 := by omega
        exact hfin ⟨z.length, hlt⟩ (by rw [← hzc]; exact hlast)
      have hzcanon : z = canonL := by
        rw [hzc, hz21']
        rfl
      rcases hm with ⟨S, A, D, hS, hA, hD, hmeq⟩
      have hfull : a ++ canonL = S ++ A ++ D ++ redditDotCom := by
        rw [← hzcanon, ← hmz, hmeq]
      have hkey : a ++ "http://www.".data = S ++ A ++ D := by
        have h6 : (a ++ "http://www.".data) ++ redditDotCom =
            (S ++ A ++ D) ++ redditDotCom := by
          rw [List.append_assoc, ← canonL_split, hfull]
        exact List.append_cancel_right h6
      have hD' : D = ['.'] := by
        rcases hD with rfl | rfl
        · exfalso
          have hl : (a ++ "http://www.".data).getLast? = some '.' :=
            getLast?_append_ne (show ("http://www.".data : List Char).getLast? = some '.' from rfl)
          rw [hkey] at hl
          simp only [List.append_nil] at hl
          rcases Option.isSome_iff_exists.mp (List.getLast?_isSome.mpr (AltOK_ne_nil hA)) with ⟨x, hx⟩
          rw [getLast?_append_ne hx] at hl
          rw [hl] at hx
          exact AltOK_getLast_ne_dot hA hx
        · rfl
      subst hD'
      have hkey2 : a ++ "http://www".data = S ++ A := by
        have h8 : (a ++ "http://www".data) ++ ['.'] = (S ++ A) ++ ['.'] := by
          rw [List.append_assoc, show ("http://www".data : List Char) ++ ['.'] = "http://www.".data from rfl]
          rw [hkey, List.append_assoc]
        exact List.append_cancel_right h8
      rcases hA with hA | ⟨a1, b1, ha1, hb1, rfl⟩ | ⟨a1, b1, c1, d1, ha1, hb1, hc1, hd1, rfl⟩
      · simp only [altLits, List.mem_cons, List.not_mem_nil, or_false] at hA
        have hwlast : (a ++ "http://www".data).getLast? = some 'w' :=
          getLast?_append_ne (show ("http://www".data : List Char).getLast? = some 'w' from rfl)
        rcases hA with rfl | rfl | rfl | rfl | rfl | rfl
        · rw [hkey2, getLast?_append_ne (show ("beta".data : List Char).getLast? = some 'a' from rfl)] at hwlast
          simp at hwlast
        · rw [hkey2, getLast?_append_ne (show ("i".data : List Char).getLast? = some 'i' from rfl)] at hwlast
          simp at hwlast
        · rw [hkey2, getLast?_append_ne (show ("m".data : List Char).getLast? = some 'm' from rfl)] at hwlast
          simp at hwlast
        · rw [hkey2, getLast?_append_ne (show ("pay".data : List Char).getLast? = some 'y' from rfl)] at hwlast
          simp at hwlast
        · rw [hkey2, getLast?_append_ne (show ("ssl".data : List Char).getLast? = some 'l' from rfl)] at hwlast
          simp at hwlast
        · -- A = www: then a ++ "http://" = S, impossible for both schemes
          have hkey3 : a ++ "http://".data = S := by
            have h9 : (a ++ "http://".data) ++ ['w', 'w', 'w'] =
                S ++ ['w', 'w', 'w'] := by
              rw [List.append_assoc,
                show (("http://".data : List Char) ++ ['w', 'w', 'w']) = "http://www".data from rfl]
              rw [hkey2]
            exact List.append_cancel_right h9
          rcases hS with rfl | rfl
          · exact ha (List.append_left_eq_self.mp hkey3)
          · have hlen1 : a.length = 1 := by
              have := congrArg List.length hkey3
              simp [dataHttpSlash, dataHttpsSlash] at this
              omega
            rcases a with _ | ⟨a0, a'⟩
            · simp at hlen1
            · have ha' : a' = [] := by simpa using hlen1
              subst ha'
              simp [dataHttpSlash, dataHttpsSlash] at hkey3
      · -- A = [a1, b1]: S would have to end in 'w'
        have h9 : (a ++ "http://w".data) ++ ['w', 'w'] = S ++ [a1, b1] := by
          rw [List.append_assoc,
            show (("http://w".data : List Char) ++ ['w', 'w']) = "http://www".data from rfl]
          exact hkey2
        have h10 := List.append_inj' h9 (by simp)
        have hwl : (a ++ "http://w".data).getLast? = some 'w' :=
          getLast?_append_ne (show ("http://w".data : List Char).getLast? = some 'w' from rfl)
        rw [h10.1] at hwl
        rcases hS with rfl | rfl <;> simp [dataHttpSlash, dataHttpsSlash] at hwl
      · -- A = [a1, b1, '-', c1, d1]: the '-' would have to be a 'w'
        have h9 : (a ++ "http:".data) ++ ['/', '/', 'w', 'w', 'w'] =
            S ++ [a1, b1, '-', c1, d1] := by
          rw [List.append_assoc,
            show (("http:".data : List Char) ++ ['/', '/', 'w', 'w', 'w']) = "http://www".data from rfl]
          exact hkey2
        have h10 := List.append_inj' h9 (by simp)
        have := h10.2
        simp at this
    · -- z extends past the replacement: impossible since the match is too short
      push_neg at hz21
      have hzc : z.take 21 = canonL := by
        have h4 : (z ++ t).take 21 = z.take 21 :=
          List.take_append_of_le_length (by omega)
        rw [hzt] at h4
        rw [List.take_append_of_le_length (by rw [canonL_cons]; simp)] at h4
        rw [show canonL.take 21 = canonL from rfl] at h4
        exact h4.symm
      have hz2 : z = canonL ++ z.drop 21 := by
        conv_lhs => rw [← List.take_append_drop 21 z]
        rw [hzc]
      have hz2ne : z.drop 21 ≠ [] := by
        intro hc
        have hdl : (z.drop 21).length = z.length - 21 := List.length_drop _ _
        rw [hc] at hdl
        simp at hdl
        omega
      have hlen24 := (MatchL_length hm).2
      have hml : m.length = a.length + (21 + (z.drop 21).length) := by
        rw [hmz, hz2]
        simp [List.length_append, canonL_cons]
        omega
      have hz2len : 1 ≤ (z.drop 21).length := List.length_pos.mpr hz2ne
      have halen : a.length ≤ 2 := by omega
      have hapos : 1 ≤ a.length := List.length_pos.mpr ha
      rcases hm with ⟨S, A, D, hS, hA, hD, hmeq⟩
      have hfull : S ++ A ++ D ++ redditDotCom = a ++ (canonL ++ z.drop 21) := by
        rw [← hmeq, hmz]
        exact congrArg (fun l => a ++ l) hz2
      rcases a with _ | ⟨a0, a'⟩
      · exact ha rfl
      rcases a' with _ | ⟨a1, a''⟩
      · rcases hS with rfl | rfl <;>
          simp [dataHttpSlash, dataHttpsSlash, canonL_cons, List.cons_append,
            List.append_assoc] at hfull
      · rcases a'' with _ | ⟨a2, a'''⟩
        · rcases hS with rfl | rfl <;>
            simp [dataHttpSlash, dataHttpsSlash, canonL_cons, List.cons_append,
              List.append_assoc] at hfull
        · simp at halen

theorem subScan_canon_append (X : List Char) :
    subScan (canonL ++ X) = canonL ++ subScan X := by
  have hcons : canonL ++ X = 'h' :: ("ttp://www.reddit.com".data ++ X) := rfl
  have h21 : matchLen? ('h' :: ("ttp://www.reddit.com".data ++ X)) = some 21 := by
    rw [← hcons]
    exact matchLen?_canon X
  rw [hcons, subScan_cons_some h21]
  refine congrArg (canonL ++ ·) ?_
  rw [show (21 - 1 : Nat) = ("ttp://www.reddit.com".data).length from rfl]
  rw [List.drop_left]

/-- No new match appears at a position in front of substituted text. -/
theorem matchLen?_sub_none :
    ∀ (N : Nat) (rest a : List Char), rest.length ≤ N → a ≠ [] →
      matchLen? (a ++ rest) = none → matchLen? (a ++ subScan rest) = none := by
  intro N
  induction N with
  | zero =>
    intro rest a hlen ha hq
    have hnil : rest = [] := List.length_eq_zero.mp (Nat.le_zero.mp hlen)
    subst hnil
    rw [subScan_nil]
    exact hq
  | succ N ih =>
    intro rest a hlen ha hq
    rcases rest with _ | ⟨r, rs⟩
    · rw [subScan_nil]
      exact hq
    rcases hm : matchLen? (r :: rs) with _ | n
    · rw [subScan_cons_none hm]
      have hre : a ++ r :: subScan rs = (a ++ [r]) ++ subScan rs := by simp
      rw [hre]
      refine ih rs (a ++ [r]) ?_ (by simp) ?_
      · simp only [List.length_cons] at hlen
        omega
      · have h2 : (a ++ [r]) ++ rs = a ++ r :: rs := by simp
        rw [h2]
        exact hq
    · rw [subScan_cons_some hm]
      exact matchLen?_bound ha hq

theorem subScan_idem_bounded :
    ∀ (N : Nat) (cs : List Char), cs.length ≤ N → subScan (subScan cs) = subScan cs := by
  intro N
  induction N with
  | zero =>
    intro cs hlen
    have hnil : cs = [] := List.length_eq_zero.mp (Nat.le_zero.mp hlen)
    subst hnil
    rw [subScan_nil, subScan_nil]
  | succ N ih =>
    intro cs hlen
    rcases cs with _ | ⟨c, rest⟩
    · rw [subScan_nil, subScan_nil]
    rcases hm : matchLen? (c :: rest) with _ | n
    · rw [subScan_cons_none hm]
      have hkey : matchLen? (c :: subScan rest) = none := by
        have h1 := matchLen?_sub_none N rest [c]
          (by simp only [List.length_cons] at hlen; omega) (by simp)
          (by rw [show ([c] : List Char) ++ rest = c :: rest from rfl]; exact hm)
        rw [show ([c] : List Char) ++ subScan rest = c :: subScan rest from rfl] at h1
        exact h1
      rw [subScan_cons_none hkey]
      rw [ih rest (by simp only [List.length_cons] at hlen; omega)]
    · rw [subScan_cons_some hm]
      rw [subScan_canon_append]
      rw [ih (rest.drop (n - 1))
        (by simp only [List.length_cons] at hlen; rw [List.length_drop]; omega)]

/-- `re.sub(REDDIT_PATTERN, "http://www.reddit.com", ·)` is idempotent. -/
theorem subScan_idem (cs : List Char) : subScan (subScan cs) = subScan cs :=
  subScan_idem_bounded cs.length cs (Nat.le_refl _)

/-! ### The regular expressions `SUBREDDIT_OR_USER` and `PLAIN_SUBREDDIT_OR_USER`

`SUBREDDIT_OR_USER = /(u|user|r)/[^\/]+/?$` (searched anywhere),
`PLAIN_SUBREDDIT_OR_USER = ^/?(u|user|r)/[^\/]+/?$` (matched at the
start).  The class `[^\/]` matches every character but a slash,
newlines included, and the `$` anchor matches at the end of the input
or just before a newline that ends it. -/

/-- The `$` anchor of Python `re` (without the `MULTILINE` flag): it
matches at the end of the input, and also just before a newline that
ends the input. -/
def atDollar : List Char → Bool
  | [] => true
  | [c] => c = '\n'
  | _ => false

/-- `[^\/]+/?$` after its first (non-slash) character: a non-slash
character (including a newline) is consumed by `[^\/]+`; at a slash the
optional `/` is consumed and the `$` anchor must hold right after it;
with nothing left the `$` anchor holds at the end. -/
def plainTailRest : List Char → Bool
  | [] => true
  | c :: rest => if c = '/' then atDollar rest else plainTailRest rest

/-- `[^\/]+/?$`: one or more non-slash characters, an optional slash, end. -/
def plainTail : List Char → Bool
  | [] => false
  | c :: rest => !(c = '/') && plainTailRest rest

/-- One alternative of `(u|user|r)` followed by `/[^\/]+/?$`. -/
def keySlash (k : List Char) (cs : List Char) : Bool :=
  match stripPfx? k cs with
  | some ('/' :: rest) => plainTail rest
  | _ => false

/-- `(u|user|r)/[^\/]+/?$`, alternatives in the order written. -/
def afterSlashKey (cs : List Char) : Bool :=
  keySlash "u".data cs || keySlash "user".data cs || keySlash "r".data cs

/-- `^/?(u|user|r)/[^\/]+/?$` at the start of the input (the optional
leading slash consumed greedily first, backtracked on failure). -/
def plainCore (cs : List Char) : Bool :=
  match cs with
  | '/' :: rest => afterSlashKey rest || afterSlashKey cs
  | _ => afterSlashKey cs

/-- A `SUBREDDIT_OR_USER` match starting at this position. -/
def souAt (cs : List Char) : Bool :=
  match cs with
  | '/' :: rest => afterSlashKey rest
  | _ => false

/-- `re.search` of `SUBREDDIT_OR_USER`: try every position left to right. -/
def souSearch : List Char → Bool
  | [] => false
  | c :: rest => souAt (c :: rest) || souSearch rest

/-! ### `fix_url` and `skip_url` -/

/-- `re.match(REDDIT_PATTERN, s)` as a boolean. -/
def REDDIT_PATTERN_match (s : String) : Bool := (matchLen? s.data).isSome

/-- `re.search(SUBREDDIT_OR_USER, s)` as a boolean. -/
def SUBREDDIT_OR_USER_search (s : String) : Bool := souSearch s.data

/-- `re.match(PLAIN_SUBREDDIT_OR_USER, s)` as a boolean. -/
def PLAIN_SUBREDDIT_OR_USER_match (s : String) : Bool := plainCore s.data

/-- `fix_url` of snapshill.py: prepend the canonical host to a bare
subreddit/user mention, then rewrite every `REDDIT_PATTERN` occurrence
to `http://www.reddit.com`. -/
def fix_url (url : String) : String :=
  let url1 := if PLAIN_SUBREDDIT_OR_USER_match url
    then "http://www.reddit.com/" ++ url else url
  ⟨subScan url1.data⟩

/-- `skip_url` of snapshill.py: skip naked username mentions and
subreddit links. -/
def skip_url (url : String) : Bool :=
  REDDIT_PATTERN_match url && SUBREDDIT_OR_USER_search url

example : fix_url "http://reddit.com/r/test" = "http://reddit.com/r/test" := by decide
example : skip_url "http://reddit.com/r/test" = false := by decide
example : fix_url "http://www.reddit.com/r/test" = "http://www.reddit.com/r/test" := by decide
example : skip_url "http://www.reddit.com/r/test" = true := by decide
example : fix_url "https://en-gb.reddit.com/a/b" = "http://www.reddit.com/a/b" := by decide
example : fix_url "https://wwreddit.comz" = "http://www.reddit.comz" := by decide
example : fix_url "http://betareddit.com" = "http://www.reddit.com" := by decide
example : fix_url "http://m.reddit.comreddit.com" = "http://www.reddit.comreddit.com" := by decide
example : fix_url "r/test" = "http://www.reddit.com/r/test" := by decide
example : fix_url "/user/bob/" = "http://www.reddit.com//user/bob/" := by decide
example : fix_url "/r/" = "/r/" := by decide
example : fix_url "r//x" = "r//x" := by decide
example : skip_url "http://www.reddit.com/r/test/" = true := by decide
example : skip_url "http://www.reddit.com/r/test/extra" = false := by decide
example : skip_url "http://www.reddit.com/r/u/foo" = true := by decide
example : skip_url "http://www.reddit.com/user/r/foo" = true := by decide
example : skip_url "http://www.reddit.com/u/" = false := by decide
example : skip_url "http://www.reddit.com//u/x" = true := by decide
example : skip_url "http://www.reddit.com/r/x//" = false := by decide
example : fix_url "http://en.reddit.comhttp://m.reddit.com" =
    "http://www.reddit.comhttp://www.reddit.com" := by decide
example : fix_url "https://Zz.reddit.com" = "http://www.reddit.com" := by decide
example : fix_url "https://_-.reddit.com" = "https://_-.reddit.com" := by decide
example : fix_url "xhttp://www.reddit.com" = "xhttp://www.reddit.com" := by decide
example : skip_url "http://www.reddit.com/r/test/\n" = true := by decide
example : skip_url "http://www.reddit.com/r/test\n" = true := by decide
example : skip_url "http://www.reddit.com/r/test/a\n" = false := by decide
example : skip_url "http://www.reddit.com/r/test/\n\n" = false := by decide
example : skip_url "http://www.reddit.com/r/\n" = true := by decide
example : skip_url "http://www.reddit.com/r//\n" = false := by decide
example : fix_url "r/test/\n" = "http://www.reddit.com/r/test/\n" := by decide
example : fix_url "r/test\n\n" = "http://www.reddit.com/r/test\n\n" := by decide
example : fix_url "u//\n" = "u//\n" := by decide
example : fix_url "r/a\nb/" = "http://www.reddit.com/r/a\nb/" := by decide
example : fix_url "r/x/\n/" = "r/x/\n/" := by decide

/-! ### `fix_url` is idempotent

The proof: substituted output contains `//` (from an inserted
`http://www.reddit.com`) or is the unchanged input, strings matched by
`PLAIN_SUBREDDIT_OR_USER` never contain `//`, so a second `fix_url`
never prepends, and `subScan` is idempotent. -/

/-- Whether the text contains two adjacent slashes. -/
def hasDS : List Char → Bool
  | '/' :: '/' :: _ => true
  | _ :: rest => hasDS rest
  | [] => false

theorem hasDS_cons (a : Char) (l : List Char) :
    hasDS (a :: l) = ((a = '/' && l.head? = some '/') || hasDS l) := by
  rcases l with _ | ⟨b, l'⟩
  · by_cases ha : a = '/' <;> simp [hasDS, ha]
  · by_cases ha : a = '/' <;> by_cases hb : b = '/' <;>
      simp [hasDS, ha, hb]

theorem hasDS_append (xs ys : List Char) :
    hasDS (xs ++ ys) =
      (hasDS xs || (xs.getLast? = some '/' && ys.head? = some '/') || hasDS ys) := by
  induction xs with
  | nil => simp [hasDS]
  | cons x xs' ih =>
    rw [List.cons_append, hasDS_cons, ih, hasDS_cons]
    rcases xs' with _ | ⟨b, l'⟩
    · simp [hasDS]
    · simp only [List.head?_cons, List.cons_append, List.getLast?_cons_cons]
      cases hx : decide (x = '/') <;> simp_all [Bool.or_assoc]

theorem hasDS_canonL_append (X : List Char) : hasDS (canonL ++ X) = true := rfl

/-- Substitution either leaves the text unchanged or leaves a `//` in it. -/
theorem subScan_eq_or_hasDS :
    ∀ (N : Nat) (cs : List Char), cs.length ≤ N →
      subScan cs = cs ∨ hasDS (subScan cs) = true := by
  intro N
  induction N with
  | zero =>
    intro cs hlen
    have hnil : cs = [] := List.length_eq_zero.mp (Nat.le_zero.mp hlen)
    subst hnil
    exact Or.inl subScan_nil
  | succ N ih =>
    intro cs hlen
    rcases cs with _ | ⟨c, rest⟩
    · exact Or.inl subScan_nil
    rcases hm : matchLen? (c :: rest) with _ | n
    · rw [subScan_cons_none hm]
      rcases ih rest (by simp only [List.length_cons] at hlen; omega) with h | h
      · exact Or.inl (by rw [h])
      · right
        rw [hasDS_cons, h]
        simp
    · right
      rw [subScan_cons_some hm]
      exact hasDS_canonL_append _

theorem atDollar_sound {r : List Char} (h : atDollar r = true) :
    r = [] ∨ r = ['\n'] := by
  rcases r with _ | ⟨c, _ | ⟨d, r''⟩⟩
  · exact Or.inl rfl
  · simp only [atDollar, decide_eq_true_eq] at h
    exact Or.inr (by rw [h])
  · simp [atDollar] at h

theorem plainTailRest_sound :
    ∀ {r : List Char}, plainTailRest r = true →
      ∃ t o2, (o2 = [] ∨ o2 = ['/'] ∨ o2 = ['/', '\n']) ∧
        (∀ c ∈ t, c ≠ '/') ∧ r = t ++ o2 := by
  intro r
  induction r with
  | nil => exact fun _ => ⟨[], [], Or.inl rfl, by simp, rfl⟩
  | cons c rest ih =>
    intro h
    by_cases hc : c = '/'
    · subst hc
      have hd : atDollar rest = true := by simpa [plainTailRest] using h
      rcases atDollar_sound hd with rfl | rfl
      · exact ⟨[], ['/'], Or.inr (Or.inl rfl), by simp, rfl⟩
      · exact ⟨[], ['/', '\n'], Or.inr (Or.inr rfl), by simp, rfl⟩
    · have h' : plainTailRest rest = true := by simpa [plainTailRest, hc] using h
      rcases ih h' with ⟨t, o2, ho2, ht, heq⟩
      refine ⟨c :: t, o2, ho2, ?_, by rw [List.cons_append, ← heq]⟩
      intro x hx
      rcases List.mem_cons.mp hx with rfl | hx
      · exact hc
      · exact ht x hx

theorem plainTail_sound {cs : List Char} (h : plainTail cs = true) :
    ∃ t o2, t ≠ [] ∧ (o2 = [] ∨ o2 = ['/'] ∨ o2 = ['/', '\n']) ∧
      (∀ c ∈ t, c ≠ '/') ∧ cs = t ++ o2 := by
  rcases cs with _ | ⟨c, rest⟩
  · simp [plainTail] at h
  · have h' : ¬(c = '/') ∧ plainTailRest rest = true := by
      simpa [plainTail] using h
    rcases plainTailRest_sound h'.2 with ⟨t, o2, ho2, ht, heq⟩
    refine ⟨c :: t, o2, by simp, ho2, ?_, by rw [List.cons_append, ← heq]⟩
    intro x hx
    rcases List.mem_cons.mp hx with rfl | hx
    · exact h'.1
    · exact ht x hx

/-- The `(u|user|r)` alternatives. -/
def souKeys : List (List Char) := ["u".data, "user".data, "r".data]

theorem keySlash_sound {k cs : List Char} (h : keySlash k cs = true) :
    ∃ rest, cs = k ++ ('/' :: rest) ∧ plainTail rest = true := by
  unfold keySlash at h
  split at h
  · rename_i rest hstrip
    exact ⟨rest, stripPfx?_eq_some.mp hstrip, h⟩
  · exact absurd h (by simp)

theorem afterSlashKey_sound {cs : List Char} (h : afterSlashKey cs = true) :
    ∃ k rest, k ∈ souKeys ∧ cs = k ++ ('/' :: rest) ∧ plainTail rest = true := by
  unfold afterSlashKey at h
  simp only [Bool.or_eq_true] at h
  rcases h with (h | h) | h
  · rcases keySlash_sound h with ⟨rest, hcs, hp⟩
    exact ⟨"u".data, rest, by simp [souKeys], hcs, hp⟩
  · rcases keySlash_sound h with ⟨rest, hcs, hp⟩
    exact ⟨"user".data, rest, by simp [souKeys], hcs, hp⟩
  · rcases keySlash_sound h with ⟨rest, hcs, hp⟩
    exact ⟨"r".data, rest, by simp [souKeys], hcs, hp⟩

theorem plainCore_sound {cs : List Char} (h : plainCore cs = true) :
    ∃ o1 k rest, (o1 = [] ∨ o1 = ['/']) ∧ k ∈ souKeys ∧ plainTail rest = true ∧
      cs = o1 ++ (k ++ ('/' :: rest)) := by
  unfold plainCore at h
  split at h
  · rename_i rest0
    simp only [Bool.or_eq_true] at h
    rcases h with h | h
    · rcases afterSlashKey_sound h with ⟨k, rest, hk, hcs, hp⟩
      exact ⟨['/'], k, rest, Or.inr rfl, hk, hp, by rw [hcs]; rfl⟩
    · rcases afterSlashKey_sound h with ⟨k, rest, hk, hcs, hp⟩
      exact ⟨[], k, rest, Or.inl rfl, hk, hp, by rw [← hcs]; rfl⟩
  · rcases afterSlashKey_sound h with ⟨k, rest, hk, hcs, hp⟩
    exact ⟨[], k, rest, Or.inl rfl, hk, hp, by rw [← hcs]; rfl⟩

theorem hasDS_noslash_opt :
    ∀ (t o2 : List Char), (∀ c ∈ t, c ≠ '/') →
      (o2 = [] ∨ o2 = ['/'] ∨ o2 = ['/', '\n']) →
      hasDS (t ++ o2) = false := by
  intro t
  induction t with
  | nil =>
    intro o2 _ ho2
    rcases ho2 with rfl | rfl | rfl <;> rfl
  | cons c t' ih =>
    intro o2 ht ho2
    rw [List.cons_append, hasDS_cons]
    have hc : c ≠ '/' := ht c (by simp)
    have ih' := ih o2 (fun x hx => ht x (by simp [hx])) ho2
    simp [hc, ih']

theorem plainCore_no_hasDS {cs : List Char} (h : plainCore cs = true) :
    hasDS cs = false := by
  rcases plainCore_sound h with ⟨o1, k, rest, ho1, hk, hrest, rfl⟩
  rcases plainTail_sound hrest with ⟨t, o2, htne, ho2, ht, rfl⟩
  rcases t with _ | ⟨t0, t'⟩
  · exact absurd rfl htne
  have ht0 : t0 ≠ '/' := ht t0 (by simp)
  have htDS : hasDS (t' ++ o2) = false :=
    hasDS_noslash_opt t' o2 (fun c hc => ht c (by simp [hc])) ho2
  simp only [souKeys, List.mem_cons, List.not_mem_nil, or_false] at hk
  rcases hk with rfl | rfl | rfl <;> rcases ho1 with rfl | rfl <;>
    simp [hasDS_cons, List.cons_append, ht0, htDS]

theorem plain_match_mk (l : List Char) :
    PLAIN_SUBREDDIT_OR_USER_match ⟨l⟩ = plainCore l := rfl

theorem fix_url_eq (u : String) :
    fix_url u = ⟨subScan (if PLAIN_SUBREDDIT_OR_USER_match u
      then "http://www.reddit.com/" ++ u else u).data⟩ := rfl

theorem hasDS_plain_prepend (u : String) :
    hasDS (("http://www.reddit.com/" ++ u).data) = true := by
  rw [String.data_append]
  rfl

theorem plainCore_subScan_false (u1 : String)
    (hds : hasDS u1.data = true ∨ plainCore u1.data = false) :
    plainCore (subScan u1.data) = false := by
  rcases subScan_eq_or_hasDS u1.data.length u1.data (Nat.le_refl _) with h | h
  · rw [h]
    rcases hds with hds | hds
    · cases hpc : plainCore u1.data
      · rfl
      · rw [plainCore_no_hasDS hpc] at hds
        cases hds
    · exact hds
  · cases hpc : plainCore (subScan u1.data)
    · rfl
    · rw [plainCore_no_hasDS hpc] at h
      cases h

/-- `fix_url` is idempotent: the output of one application is left
unchanged by a second (see claim C8). -/
theorem fix_url_idem_aux (u : String) : fix_url (fix_url u) = fix_url u := by
  rw [fix_url_eq u]
  set u1 := if PLAIN_SUBREDDIT_OR_USER_match u
    then "http://www.reddit.com/" ++ u else u with hu1
  have hnoplain : plainCore (subScan u1.data) = false := by
    apply plainCore_subScan_false
    rw [hu1]
    by_cases hp : PLAIN_SUBREDDIT_OR_USER_match u
    · left
      rw [if_pos hp]
      exact hasDS_plain_prepend u
    · right
      rw [if_neg hp]
      simpa [PLAIN_SUBREDDIT_OR_USER_match] using hp
  rw [fix_url_eq ⟨subScan u1.data⟩]
  rw [plain_match_mk]
  rw [if_neg (by simp [hnoplain])]
  show (⟨subScan (subScan u1.data)⟩ : String) = ⟨subScan u1.data⟩
  rw [subScan_idem]

/-! ### Characterization of `SUBREDDIT_OR_USER` search results -/

theorem plainTailRest_cons {c : Char} (l : List Char) (hc : c ≠ '/') :
    plainTailRest (c :: l) = plainTailRest l := by
  rcases l with _ | ⟨d, l'⟩ <;> simp [plainTailRest, hc]

theorem plainTail_cons {c : Char} (l : List Char) (hc : c ≠ '/') :
    plainTail (c :: l) = plainTailRest l := by
  simp [plainTail, hc]

theorem plainTailRest_complete :
    ∀ (t o2 : List Char), (∀ c ∈ t, c ≠ '/') →
      (o2 = [] ∨ o2 = ['/'] ∨ o2 = ['/', '\n']) →
      plainTailRest (t ++ o2) = true := by
  intro t
  induction t with
  | nil =>
    intro o2 _ ho2
    rcases ho2 with rfl | rfl | rfl <;> rfl
  | cons c t' ih =>
    intro o2 ht ho2
    rw [List.cons_append, plainTailRest_cons _ (ht c (by simp))]
    exact ih o2 (fun x hx => ht x (by simp [hx])) ho2

theorem plainTail_complete {t : List Char} (o2 : List Char) (htne : t ≠ [])
    (ht : ∀ c ∈ t, c ≠ '/') (ho2 : o2 = [] ∨ o2 = ['/'] ∨ o2 = ['/', '\n']) :
    plainTail (t ++ o2) = true := by
  rcases t with _ | ⟨t0, t'⟩
  · exact absurd rfl htne
  rw [List.cons_append, plainTail_cons _ (ht t0 (by simp))]
  exact plainTailRest_complete t' o2 (fun x hx => ht x (by simp [hx])) ho2

theorem afterSlashKey_complete {k rest : List Char} (hk : k ∈ souKeys)
    (hp : plainTail rest = true) : afterSlashKey (k ++ ('/' :: rest)) = true := by
  simp only [souKeys, List.mem_cons, List.not_mem_nil, or_false] at hk
  rcases hk with rfl | rfl | rfl <;>
    simp [afterSlashKey, keySlash, stripPfx?, hp]

theorem souSearch_cons (c : Char) (rest : List Char) :
    souSearch (c :: rest) = (souAt (c :: rest) || souSearch rest) := rfl

theorem souSearch_append_right {b : List Char} (a : List Char)
    (h : souSearch b = true) : souSearch (a ++ b) = true := by
  induction a with
  | nil => exact h
  | cons x a' ih =>
    rw [List.cons_append, souSearch_cons, ih]
    simp

theorem souAt_complete {k rest : List Char} (hk : k ∈ souKeys)
    (hp : plainTail rest = true) :
    souAt ('/' :: (k ++ ('/' :: rest))) = true := by
  show afterSlashKey (k ++ ('/' :: rest)) = true
  exact afterSlashKey_complete hk hp

theorem souSearch_sound :
    ∀ {cs : List Char}, souSearch cs = true →
      ∃ pre k rest, k ∈ souKeys ∧ plainTail rest = true ∧
        cs = pre ++ ('/' :: (k ++ ('/' :: rest))) := by
  intro cs
  induction cs with
  | nil => intro h; simp [souSearch] at h
  | cons c rest ih =>
    intro h
    rw [souSearch_cons] at h
    simp only [Bool.or_eq_true] at h
    rcases h with h' | h'
    · unfold souAt at h'
      split at h'
      · rename_i cs2 rest2 heq2
        rcases afterSlashKey_sound h' with ⟨k, r2, hk, hr, hp⟩
        exact ⟨[], k, r2, hk, hp, by rw [heq2, hr]; rfl⟩
      · exact absurd h' (by simp)
    · rcases ih h' with ⟨pre, k, r2, hk, hp, hcs⟩
      exact ⟨c :: pre, k, r2, hk, hp, by rw [hcs]; rfl⟩

theorem lastSlash_eq :
    ∀ {X Y t s : List Char}, X ++ ('/' :: t) = Y ++ ('/' :: s) →
      (∀ c ∈ t, c ≠ '/') → (∀ c ∈ s, c ≠ '/') → X = Y ∧ t = s := by
  intro X
  induction X with
  | nil =>
    intro Y t s h ht hs
    rcases Y with _ | ⟨y, Y'⟩
    · simp only [List.nil_append, List.cons.injEq] at h
      exact ⟨rfl, h.2⟩
    · rw [List.nil_append, List.cons_append] at h
      injection h with h1 h2
      exact absurd rfl
        (ht '/' (by rw [h2]; exact List.mem_append.mpr (Or.inr (by simp))))
  | cons xh X' ih =>
    intro Y t s h ht hs
    rcases Y with _ | ⟨y, Y'⟩
    · rw [List.nil_append, List.cons_append] at h
      injection h with h1 h2
      exact absurd rfl
        (hs '/' (by rw [← h2]; exact List.mem_append.mpr (Or.inr (by simp))))
    · rw [List.cons_append, List.cons_append] at h
      injection h with h1 h2
      rcases ih h2 ht hs with ⟨hXY, hts⟩
      exact ⟨by rw [h1, hXY], hts⟩

theorem getLast?_mem_self : ∀ {l : List Char} {a : Char}, l.getLast? = some a → a ∈ l := by
  intro l
  induction l with
  | nil => intro a h; simp at h
  | cons c rest ih =>
    intro a h
    rcases rest with _ | ⟨d, rest'⟩
    · simp only [List.getLast?_singleton, Option.some.injEq] at h
      simp [h]
    · rw [List.getLast?_cons_cons] at h
      exact List.mem_cons.mpr (Or.inr (ih h))

theorem eq_dropLast_concat : ∀ {l : List Char} {a : Char},
    l.getLast? = some a → l = l.dropLast ++ [a] := by
  intro l
  induction l with
  | nil => intro a h; simp at h
  | cons c rest ih =>
    intro a h
    rcases rest with _ | ⟨d, rest'⟩
    · simp only [List.getLast?_singleton, Option.some.injEq] at h
      simp [h]
    · rw [List.getLast?_cons_cons] at h
      have ihh := ih h
      calc c :: d :: rest' = c :: ((d :: rest').dropLast ++ [a]) := by rw [← ihh]
        _ = (c :: d :: rest').dropLast ++ [a] := rfl

theorem souKeys_noslash {k : List Char} (hk : k ∈ souKeys) : ∀ c ∈ k, c ≠ '/' := by
  simp only [souKeys, List.mem_cons, List.not_mem_nil, or_false] at hk
  rcases hk with rfl | rfl | rfl <;> decide

theorem dataSlash : "/".data = ['/'] := rfl

theorem dataEmpty : "".data = ([] : List Char) := rfl

theorem skip_url_pos (d k x : String) (tr : Bool)
    (hd : MatchL d.data) (hk : k.data ∈ souKeys)
    (hx : x.data ≠ []) (hxs : ∀ c ∈ x.data, c ≠ '/') :
    skip_url (d ++ "/" ++ k ++ "/" ++ x ++ (if tr then "/" else "")) = true := by
  have hdata : (d ++ "/" ++ k ++ "/" ++ x ++ (if tr then "/" else "")).data =
      d.data ++ ('/' :: (k.data ++ ('/' :: (x.data ++ (if tr then ['/'] else []))))) := by
    cases tr <;> simp [String.data_append, dataSlash, dataEmpty]
  have h1 : REDDIT_PATTERN_match (d ++ "/" ++ k ++ "/" ++ x ++ (if tr then "/" else "")) = true := by
    show (matchLen? _).isSome = true
    rw [hdata]
    exact matchLen?_complete _ hd
  have h2 : SUBREDDIT_OR_USER_search (d ++ "/" ++ k ++ "/" ++ x ++ (if tr then "/" else "")) = true := by
    show souSearch _ = true
    rw [hdata]
    apply souSearch_append_right
    rw [souSearch_cons]
    rw [souAt_complete hk (plainTail_complete _ hx hxs (by cases tr <;> simp))]
    rfl
  simp [skip_url, h1, h2]

theorem skip_url_neg (d k x seg : String)
    (hx : x.data ≠ []) (hxs : ∀ c ∈ x.data, c ≠ '/')
    (hxk : x.data ∉ souKeys)
    (hseg : seg.data ≠ []) (hsegs : ∀ c ∈ seg.data, c ≠ '/')
    (hsegnl : seg.data ≠ ['\n']) :
    skip_url (d ++ "/" ++ k ++ "/" ++ x ++ "/" ++ seg) = false := by
  have hdata : (d ++ "/" ++ k ++ "/" ++ x ++ "/" ++ seg).data =
      d.data ++ ('/' :: (k.data ++ ('/' :: (x.data ++ ('/' :: seg.data))))) := by
    simp [String.data_append, dataSlash]
  have hsou : souSearch (d ++ "/" ++ k ++ "/" ++ x ++ "/" ++ seg).data = false := by
    cases hs : souSearch (d ++ "/" ++ k ++ "/" ++ x ++ "/" ++ seg).data
    · rfl
    exfalso
    rcases souSearch_sound hs with ⟨pre, k', rest, hk', hp, hcs⟩
    rcases plainTail_sound hp with ⟨t, o2, htne, ho2, hts, rfl⟩
    rw [hdata] at hcs
    rcases ho2 with rfl | rfl | rfl
    · have hre : (pre ++ ('/' :: k')) ++ ('/' :: t) =
          ((d.data ++ ('/' :: k.data)) ++ ('/' :: x.data)) ++ ('/' :: seg.data) := by
        calc (pre ++ ('/' :: k')) ++ ('/' :: t)
            = pre ++ ('/' :: (k' ++ ('/' :: (t ++ [])))) := by simp [List.append_assoc]
          _ = d.data ++ ('/' :: (k.data ++ ('/' :: (x.data ++ ('/' :: seg.data))))) := hcs.symm
          _ = ((d.data ++ ('/' :: k.data)) ++ ('/' :: x.data)) ++ ('/' :: seg.data) := by
              simp [List.append_assoc]
      have hstep1 := lastSlash_eq hre hts hsegs
      have hstep2 := lastSlash_eq hstep1.1 (souKeys_noslash hk') hxs
      exact hxk (hstep2.2 ▸ hk')
    · have hu1 : (d.data ++ ('/' :: (k.data ++ ('/' :: (x.data ++ ('/' :: seg.data)))))).getLast? = some '/' := by
        rw [hcs]
        have e3 : pre ++ ('/' :: (k' ++ ('/' :: (t ++ ['/'])))) =
            (pre ++ ('/' :: (k' ++ ('/' :: t)))) ++ ['/'] := by
          simp [List.append_assoc]
        rw [e3]
        exact getLast?_append_ne rfl
      rcases Option.isSome_iff_exists.mp (List.getLast?_isSome.mpr hseg) with ⟨c0, hc0⟩
      have hu2 : (d.data ++ ('/' :: (k.data ++ ('/' :: (x.data ++ ('/' :: seg.data)))))).getLast? = some c0 := by
        have e4 : d.data ++ ('/' :: (k.data ++ ('/' :: (x.data ++ ('/' :: seg.data))))) =
            (d.data ++ ('/' :: (k.data ++ ('/' :: (x.data ++ ['/']))))) ++ seg.data := by
          simp [List.append_assoc]
        rw [e4]
        exact getLast?_append_ne hc0
      rw [hu1] at hu2
      have hc0s : c0 = '/' := by
        injection hu2 with h
        exact h.symm
      exact hsegs c0 (getLast?_mem_self hc0) hc0s
    · have e3 : pre ++ ('/' :: (k' ++ ('/' :: (t ++ ['/', '\n'])))) =
          (pre ++ ('/' :: (k' ++ ('/' :: (t ++ ['/']))))) ++ ['\n'] := by
        simp [List.append_assoc]
      have hu1 : (d.data ++ ('/' :: (k.data ++ ('/' :: (x.data ++ ('/' :: seg.data)))))).getLast? = some '\n' := by
        rw [hcs, e3]
        exact getLast?_append_ne rfl
      rcases Option.isSome_iff_exists.mp (List.getLast?_isSome.mpr hseg) with ⟨c0, hc0⟩
      have hu2 : (d.data ++ ('/' :: (k.data ++ ('/' :: (x.data ++ ('/' :: seg.data)))))).getLast? = some c0 := by
        have e4 : d.data ++ ('/' :: (k.data ++ ('/' :: (x.data ++ ('/' :: seg.data))))) =
            (d.data ++ ('/' :: (k.data ++ ('/' :: (x.data ++ ['/']))))) ++ seg.data := by
          simp [List.append_assoc]
        rw [e4]
        exact getLast?_append_ne hc0
      rw [hu1] at hu2
      have hc0n : c0 = '\n' := by
        injection hu2 with hh
        exact hh.symm
      have hsegsplit : seg.data = seg.data.dropLast ++ ['\n'] := by
        rw [← hc0n]
        exact eq_dropLast_concat hc0
      rcases hdl : seg.data.dropLast with _ | ⟨e0, s2⟩
      · rw [hdl] at hsegsplit
        exact hsegnl (by simpa using hsegsplit)
      · have hL : (d.data ++ ('/' :: (k.data ++ ('/' :: (x.data ++ ('/' :: seg.data)))))).dropLast
            = pre ++ ('/' :: (k' ++ ('/' :: (t ++ ['/'])))) := by
          rw [hcs, e3, List.dropLast_concat]
        have hR : (d.data ++ ('/' :: (k.data ++ ('/' :: (x.data ++ ('/' :: seg.data)))))).dropLast
            = d.data ++ ('/' :: (k.data ++ ('/' :: (x.data ++ ('/' :: seg.data.dropLast))))) := by
          conv_lhs => rw [hsegsplit]
          have e5 : d.data ++ ('/' :: (k.data ++ ('/' :: (x.data ++ ('/' :: (seg.data.dropLast ++ ['\n'])))))) =
              (d.data ++ ('/' :: (k.data ++ ('/' :: (x.data ++ ('/' :: seg.data.dropLast)))))) ++ ['\n'] := by
            simp [List.append_assoc]
          rw [e5, List.dropLast_concat]
        have hLR : pre ++ ('/' :: (k' ++ ('/' :: (t ++ ['/'])))) =
            d.data ++ ('/' :: (k.data ++ ('/' :: (x.data ++ ('/' :: seg.data.dropLast))))) := by
          rw [← hL, hR]
        have hlast1 : (pre ++ ('/' :: (k' ++ ('/' :: (t ++ ['/']))))).getLast? = some '/' := by
          have e6 : pre ++ ('/' :: (k' ++ ('/' :: (t ++ ['/'])))) =
              (pre ++ ('/' :: (k' ++ ('/' :: t)))) ++ ['/'] := by
            simp [List.append_assoc]
          rw [e6]
          exact getLast?_append_ne rfl
        have hlast2 : (d.data ++ ('/' :: (k.data ++ ('/' :: (x.data ++ ('/' :: seg.data.dropLast)))))).getLast? = some '/' := by
          rw [← hLR]
          exact hlast1
        rw [hdl] at hlast2
        rcases Option.isSome_iff_exists.mp
            (List.getLast?_isSome.mpr (by simp : (e0 :: s2) ≠ ([] : List Char))) with ⟨c1, hc1⟩
        have hlast3 : (d.data ++ ('/' :: (k.data ++ ('/' :: (x.data ++ ('/' :: (e0 :: s2))))))).getLast? = some c1 := by
          have e7 : d.data ++ ('/' :: (k.data ++ ('/' :: (x.data ++ ('/' :: (e0 :: s2)))))) =
              (d.data ++ ('/' :: (k.data ++ ('/' :: (x.data ++ ['/']))))) ++ (e0 :: s2) := by
            simp [List.append_assoc]
          rw [e7]
          exact getLast?_append_ne hc1
        rw [hlast2] at hlast3
        have hc1s : c1 = '/' := by
          injection hlast3 with hh
          exact hh.symm
        have hc1mem : c1 ∈ seg.data := by
          rw [hsegsplit, hdl]
          exact List.mem_append.mpr (Or.inl (getLast?_mem_self hc1))
        exact hsegs c1 hc1mem hc1s
  show (REDDIT_PATTERN_match (d ++ "/" ++ k ++ "/" ++ x ++ "/" ++ seg) &&
      SUBREDDIT_OR_USER_search (d ++ "/" ++ k ++ "/" ++ x ++ "/" ++ seg)) = false
  have hsou' : SUBREDDIT_OR_USER_search (d ++ "/" ++ k ++ "/" ++ x ++ "/" ++ seg) = false := hsou
  rw [hsou', Bool.and_false]

/-! ### Constants and the comment footer -/

def LEN_MAX : Nat := 35

def INFO : String := "/r/SnapshillBot"

def CONTACT : String := "/message/compose?to=\\/r\\/SnapshillBot"

def ERROR_MESSAGE : String := "could not auto-archive; click to resubmit!"

/-- `get_footer()` of snapshill.py. -/
def get_footer : String :=
  "*^(I am a bot.) ^\\([*Info*](" ++ INFO ++ ") ^/ ^[*Contact*](" ++ CONTACT ++ "))*"

/-- The value of an `Archive.archived` attribute after execution. -/
inductive Archived
  | notApplicable            -- Python None
  | failed                   -- Python False
  | success (url : String)   -- the archive URL
  deriving Repr, DecidableEq

/-- One `Archive` instance as seen by `Notification._build`.
`methodReprName` is the string that `str.format` renders for the field
reference `archive.name` in the template `"[{name}]({archive})"`: in the
source `name` is a *method*, referenced without calling it, so Python
formats the bound-method object (`<bound method Archive.name of ...>`,
address-dependent); it is therefore an input of the model. -/
structure ArchiveM where
  methodReprName : String
  archived : Archived
  deriving Repr, DecidableEq

/-- One `Link` (a `CandidateLink` plus its archives) as seen by `_build`. -/
structure LinkM where
  text : String
  archives : List ArchiveM
  deriving Repr, DecidableEq

/-- The inner loop of `Notification._build` over one link's archives:
`None` results are skipped; a `False` result evaluates
`archive.error_link + ' "could not auto-archive; click to resubmit it!"'`
where `error_link` is a *method* referenced without parentheses, so the
`+` raises `TypeError`; a URL result renders
`"[{name}]({archive})".format(name=archive.name, archive=link)`. -/
def subpartsOf : List ArchiveM → Except PyErr (List String)
  | [] => .ok []
  | a :: rest =>
    match a.archived with
    | .notApplicable => subpartsOf rest
    | .failed => .error (.typeError "unsupported operand type(s) for +: method and str")
    | .success u =>
      (subpartsOf rest).map (fun l => ("[" ++ a.methodReprName ++ "](" ++ u ++ ")") :: l)

/-- The numbered lines of `Notification._build` (`enumerate(links, 1)`). -/
def buildLines : Nat → List LinkM → Except PyErr (List String)
  | _, [] => .ok []
  | i, l :: rest =>
    match subpartsOf l.archives with
    | .error e => .error e
    | .ok sp =>
      match buildLines (i + 1) rest with
      | .error e => .error e
      | .ok ls =>
        .ok ((toString i ++ ". " ++ l.text ++ " - " ++ String.intercalate ", " sp) :: ls)

/-- `Notification._build`: header, a literal `Snapshots:` line, the
numbered link lines, the footer, joined by blank lines. -/
def Notification.build (headerText : String) (links : List LinkM) :
    Except PyErr String :=
  match buildLines 1 links with
  | .error e => .error e
  | .ok ls =>
    .ok (String.intercalate "\n\n" ([headerText, "Snapshots:"] ++ ls ++ [get_footer]))

/-! ### `Notification.notify`

The network calls (`r.submit`, `submission.add_comment`,
`post.add_comment`) are modelled by their outcomes: a returned value, a
`RECOVERABLE_EXC` exception (caught by `notify`), or any other
exception (propagating).  `notify` is modelled from the point where the
comment text has been assembled (`comment = self._build()`), returning
the calls it performed and the row inserted into the `links` table
(item name, comment name), if any. -/

/-- A call performed by `notify`. -/
inductive NotifyAction
  | submitPost (subreddit title text : String)
  | commentOnSubmission (text : String)
  | commentOnPost (text : String)

/-- Outcome of the `s.get("https://web.archive.org/save/" + url)` call. -/
inductive GetOutcome
  | succeeded
  | recoverableRaised

/-- `ArchiveOrgArchive.archive`: on success it *constructs* the archive
URL from the current UTC timestamp (`now`, already formatted with
`ARCHIVE_ORG_FORMAT`).  When the request raises one of
`RECOVERABLE_EXC`, the handler evaluates `isinstance(e, HTTPError)` --
but the name `HTTPError` is not imported anywhere in snapshill.py (only
praw's `HTTPException` is), so the handler itself raises `NameError`
instead of returning `None`/`False`. -/
def ArchiveOrgArchive.archive (url now : String) (get : GetOutcome) :
    Except PyErr Archived :=
  match get with
  | .succeeded => .ok (.success ("https://web.archive.org/" ++ now ++ "/" ++ url))
  | .recoverableRaised => .error (.nameError "HTTPError")

/-- `Post.should_notify`: the dedup gate -- look the submission name up
in the `links` table (rows are `(id, reply)` pairs); a hit means a
comment was already posted. -/
def Post.should_notify (links : List (String × String)) (name : String) : Bool :=
  !(links.any (fun row => row.1 = name))

/-- `Snapshill.run`: raises unless set up; then, for each fetched
submission, the first statement of the loop body is the bare name
`submis` (line 403 of snapshill.py), which is unbound, so the first
iteration raises `NameError` before the dedup check
(`should_notify(submission)` -- itself also an unbound name) or any
archival work is reached.  The returned list records the external calls
performed (none are). -/
def Snapshill.run (setupDone : Bool) (rawSubs : List String) :
    Except PyErr (List NotifyAction) :=
  if !setupDone then .error (.exception "Snapshiller not ready yet!")
  else match rawSubs with
  | [] => .ok []
  | _ :: _ => .error (.nameError "submis")

/-! ### The body-link extraction loop of `Snapshill.run` (lines 422-437) -/

/-- One anchor extracted from a self post's body. -/
structure Anchor where
  href : String
  contents : String

/-- Modelled from the spec: `ArchiveContainer` is called by
`Snapshill.run` but not defined anywhere in the repository (the file
defines `Link` instead).  From §4.3 of the spec, a LinkArchiver is
built from the URL and display text (its provider set plays no role in
the claims below). -/
structure ArchiveContainer where
  url : String
  text : String
  deriving Repr, DecidableEq

/-- The loop over extracted anchors: normalize with `fix_url`, drop
skippable URLs, drop URLs already in `finishedURLs`, else append an
`ArchiveContainer` and remember the URL. -/
def extractLoop : List Anchor → List String → List ArchiveContainer →
    List ArchiveContainer × List String
  | [], fin, acc => (acc, fin)
  | a :: rest, fin, acc =>
    let url := fix_url a.href
    if skip_url url then extractLoop rest fin acc
    else if url ∈ fin then extractLoop rest fin acc
    else extractLoop rest (fin ++ [url]) (acc ++ [⟨url, a.contents⟩])

/-! ### The `Header` text pool -/

/-- Outcome of fetching the settings wiki page. -/
inductive WikiFetch
  | ok (content : String)
  | recoverableError

/-- Count the leading dashes. -/
def dashRun : List Char → Nat × List Char
  | '-' :: rest =>
    let p := dashRun rest
    (p.1 + 1, p.2)
  | cs => (0, cs)

/-- A separator match of `\r\n-{3,}\r\n` at this position: `\r\n`, at
least three dashes (the full greedy run, which must be followed by
`\r\n` for the match to exist), then `\r\n`; returns the rest. -/
def sepSplit? (cs : List Char) : Option (List Char) :=
  match cs with
  | '\r' :: '\n' :: rest =>
    let p := dashRun rest
    if 3 ≤ p.1 then
      match p.2 with
      | '\r' :: '\n' :: r2 => some r2
      | _ => none
    else none
  | _ => none

/-- Left-to-right scan of `re.split('\r\n-{3,}\r\n', s)` (fuel bounds
the recursion depth; `fuel = cs.length` always suffices since a
separator consumes at least seven characters). -/
def splitQuotesGo : Nat → List Char → List Char → List (List Char)
  | _, [], cur => [cur.reverse]
  | 0, cs, cur => [cur.reverse ++ cs]
  | fuel + 1, c :: rest, cur =>
    match sepSplit? (c :: rest) with
    | some r2 => cur.reverse :: splitQuotesGo fuel r2 []
    | none => splitQuotesGo fuel rest (c :: cur)

/-- `re.split('\r\n-{3,}\r\n', s)`. -/
def re_split_quotes (s : String) : List String :=
  (splitQuotesGo s.data.length s.data []).map (fun l => ⟨l⟩)

/-- Python `str.strip()` whitespace (the ASCII part). -/
def isPyWhitespace (c : Char) : Bool :=
  c = ' ' || c = '\t' || c = '\n' || c = '\r' || c = '\x0b' || c = '\x0c'

/-- Python `str.strip()`. -/
def pyStrip (s : String) : String :=
  ⟨((s.data.dropWhile isPyWhitespace).reverse.dropWhile isPyWhitespace).reverse⟩

/-- `Header._parse_quotes`: split on separator lines, strip each piece,
keep the truthy (nonempty) ones. -/
def parse_quotes (s : String) : List String :=
  ((re_split_quotes s).map pyStrip).filter (fun q => q ≠ "")

/-- The `texts` pool after `Header.__init__`: a recoverable wiki-fetch
error is swallowed leaving the pool empty; content starting with
`!ignore` leaves it empty; otherwise it is parsed. -/
def Header.texts (fetch : WikiFetch) : List String :=
  match fetch with
  | .recoverableError => []
  | .ok content =>
    if content.startsWith "!ignore" then [] else parse_quotes content

/-- `Header.get`: empty string on an empty pool, else a random choice
(modelled by an arbitrary index, reduced mod the pool size). -/
def Header.get (texts : List String) (choice : Nat) : String :=
  if texts.isEmpty then "" else texts.getD (choice % texts.length) ""

/-! ### Supporting lemmas for the claims -/

theorem parse_quotes_ne_empty {s : String} : ∀ q ∈ parse_quotes s, q ≠ "" := by
  intro q hq
  simpa using (List.mem_filter.mp hq).2

theorem Header_texts_ne_empty {fetch : WikiFetch} :
    ∀ q ∈ Header.texts fetch, q ≠ "" := by
  intro q hq
  rcases fetch with content | _
  · rw [show Header.texts (.ok content) =
        if content.startsWith "!ignore" then [] else parse_quotes content from rfl] at hq
    by_cases hig : content.startsWith "!ignore"
    · rw [if_pos hig] at hq
      simp at hq
    · rw [if_neg hig] at hq
      exact parse_quotes_ne_empty q hq
  · simp [Header.texts] at hq

theorem getD_mem_of_lt {l : List String} {n : Nat} (h : n < l.length) (d : String) :
    l.getD n d ∈ l := by
  rw [List.getD_eq_getElem?_getD, List.getElem?_eq_getElem h]
  exact List.getElem_mem h

theorem Header_get_mem {texts : List String} (h : texts ≠ []) (choice : Nat) :
    Header.get texts choice ∈ texts := by
  unfold Header.get
  rw [if_neg (by simpa using h)]
  exact getD_mem_of_lt (Nat.mod_lt _ (List.length_pos.mpr h)) ""

theorem extractLoop_cons (a : Anchor) (rest : List Anchor) (fin : List String)
    (acc : List ArchiveContainer) :
    extractLoop (a :: rest) fin acc =
      if skip_url (fix_url a.href) then extractLoop rest fin acc
      else if fix_url a.href ∈ fin then extractLoop rest fin acc
      else extractLoop rest (fin ++ [fix_url a.href])
        (acc ++ [⟨fix_url a.href, a.contents⟩]) := rfl

theorem extractLoop_nodup :
    ∀ (anchors : List Anchor) (fin : List String) (acc : List ArchiveContainer),
      (acc.map ArchiveContainer.url).Nodup →
      (∀ u ∈ acc.map ArchiveContainer.url, u ∈ fin) →
      ((extractLoop anchors fin acc).1.map ArchiveContainer.url).Nodup := by
  intro anchors
  induction anchors with
  | nil =>
    intro fin acc h1 _
    exact h1
  | cons a rest ih =>
    intro fin acc h1 h2
    rw [extractLoop_cons]
    by_cases hskip : skip_url (fix_url a.href)
    · rw [if_pos hskip]
      exact ih fin acc h1 h2
    rw [if_neg hskip]
    by_cases hmem : fix_url a.href ∈ fin
    · rw [if_pos hmem]
      exact ih fin acc h1 h2
    rw [if_neg hmem]
    apply ih
    · rw [List.map_append, List.nodup_append]
      refine ⟨h1, by simp, ?_⟩
      intro u hu hu2
      have hue : u = fix_url a.href := by simpa using hu2
      exact hmem (hue ▸ h2 u hu)
    · intro u hu
      rw [List.map_append] at hu
      rcases List.mem_append.mp hu with hu | hu
      · exact List.mem_append.mpr (Or.inl (h2 u hu))
      · have hue : u = fix_url a.href := by simpa using hu
        exact List.mem_append.mpr (Or.inr (by simp [hue]))

/-! ### The claims -/

/-- C1: the claim says an Item already recorded in the `links` table is
skipped by `run` before any archival work.  In the code as written the
claim fails: the first statement of the per-submission loop body is the
bare unbound name `submis` (line 403), so `run` raises `NameError` on
the first fetched submission, before the dedup lookup
(`should_notify`) can even execute; no call of any kind is performed.
This theorem evaluates the embedded `run` on any non-empty fetch
result. -/
theorem claim_C1 (subs : List String) (h : subs ≠ []) :
    Snapshill.run true subs = .error (.nameError "submis") := by
  rcases subs with _ | ⟨s, rest⟩
  · exact absurd rfl h
  · rfl

/-- Witness for C1: a cycle that fetches exactly one submission. -/
theorem claim_C1_witness :
    Snapshill.run true ["t3_abc123"] = .error (.nameError "submis") :=
  claim_C1 ["t3_abc123"] (by decide)

/-- C3: the claim says every recoverable error raised during an
archive.org submit is converted to `False`/`None` inside
`ArchiveOrgArchive.archive`.  In the code the `except RECOVERABLE_EXC`
handler evaluates `isinstance(e, HTTPError)`, and `HTTPError` is an
unbound name (never imported), so every recoverable error turns into a
`NameError` that propagates out of `archive` -- contradicting the
method's own docstring. -/
theorem claim_C3 (url now : String) :
    ArchiveOrgArchive.archive url now .recoverableRaised =
      .error (.nameError "HTTPError") := rfl

/-- C4: the claim says a link with a Failed archive still renders a
numbered line carrying a resubmission link.  In the code
`Notification._build` evaluates
`archive.error_link + ' "could not auto-archive; click to resubmit it!"'`
for a Failed archive, and `error_link` is a method referenced without
calling it, so the `+` raises `TypeError` and no text is built at all
(the `TypeError` is not in `RECOVERABLE_EXC`, so it propagates out of
`notify`). -/
theorem claim_C4 (headerText repr0 text : String) (rest : List ArchiveM)
    (restLinks : List LinkM) :
    Notification.build headerText (⟨text, ⟨repr0, .failed⟩ :: rest⟩ :: restLinks) =
      .error (.typeError "unsupported operand type(s) for +: method and str") := rfl

/-- C6 counterexample: `http://www.reddit.com` matches the reddit
domain pattern and `/r/u` is a bare subreddit reference (x = `u`), yet
extending it with the additional path segment `foo` still yields
`skip_url = true`, because `SUBREDDIT_OR_USER` is only anchored at the
end and re-matches the `/u/foo` suffix. -/
theorem claim_C6_counterexample :
    REDDIT_PATTERN_match "http://www.reddit.com" = true ∧
      skip_url ("http://www.reddit.com" ++ "/" ++ "r" ++ "/" ++ "u" ++ "/" ++ "foo") = true := by
  constructor
  · decide
  · decide

/-- C6 (amended): for every URL whose front matches the reddit domain
pattern exactly and whose path is a bare `/r/x`, `/u/x` or `/user/x`
reference (optional trailing slash), `skip_url` returns true; extending
such a URL with one additional path segment makes `skip_url` return
false *provided the bare reference name `x` is not itself one of `u`,
`user`, `r`* (otherwise the extended URL ends in a `/u/segment`-shaped
suffix and is still skipped, as the counterexample shows) *and the
added segment is not a lone newline* (the `$` anchor of
`SUBREDDIT_OR_USER` also matches just before a trailing newline, so a
URL ending `/r/x/` + newline is still skipped). -/
theorem claim_C6 (d k x seg : String) (tr : Bool)
    (hd : MatchL d.data) (hk : k.data ∈ souKeys)
    (hx : x.data ≠ []) (hxs : ∀ c ∈ x.data, c ≠ '/')
    (hxk : x.data ∉ souKeys)
    (hseg : seg.data ≠ []) (hsegs : ∀ c ∈ seg.data, c ≠ '/')
    (hsegnl : seg.data ≠ ['\n']) :
    skip_url (d ++ "/" ++ k ++ "/" ++ x ++ (if tr then "/" else "")) = true ∧
      skip_url (d ++ "/" ++ k ++ "/" ++ x ++ "/" ++ seg) = false :=
  ⟨skip_url_pos d k x tr hd hk hx hxs,
   skip_url_neg d k x seg hx hxs hxk hseg hsegs hsegnl⟩

/-- Witness for C6 at a concrete URL. -/
theorem claim_C6_witness :
    skip_url ("http://www.reddit.com" ++ "/" ++ "r" ++ "/" ++ "test" ++
        (if false then "/" else "")) = true ∧
      skip_url ("http://www.reddit.com" ++ "/" ++ "r" ++ "/" ++ "test" ++ "/" ++ "extra") = false :=
  claim_C6 "http://www.reddit.com" "r" "test" "extra" false
    ⟨"http://".data, "www".data, ['.'], Or.inl rfl, Or.inl (by decide), Or.inr rfl, rfl⟩
    (by decide) (by decide) (by decide) (by decide) (by decide) (by decide) (by decide)

/-- C7 counterexample: `fix_url` does *not* rewrite
`http://reddit.com/r/test` to `http://www.reddit.com/r/test`: the bare
host `reddit.com` (with no subdomain) does not match `REDDIT_PATTERN`
(whose group requires a two-letter code or one of
`beta|i|m|pay|ssl|www`), so the URL is returned unchanged. -/
theorem claim_C7_counterexample :
    fix_url "http://reddit.com/r/test" ≠ "http://www.reddit.com/r/test" ∧
      fix_url "http://reddit.com/r/test" = "http://reddit.com/r/test" := by
  constructor
  · decide
  · decide

/-- C7 (amended): `fix_url` leaves `http://reddit.com/r/test` unchanged
(the bare host does not match the reddit domain pattern), and that
unchanged URL is *not* skipped; the already-canonical
`http://www.reddit.com/r/test` is left unchanged by `fix_url` and *is*
skipped as a bare subreddit reference. -/
theorem claim_C7 :
    fix_url "http://reddit.com/r/test" = "http://reddit.com/r/test" ∧
      skip_url (fix_url "http://reddit.com/r/test") = false ∧
      fix_url "http://www.reddit.com/r/test" = "http://www.reddit.com/r/test" ∧
      skip_url "http://www.reddit.com/r/test" = true := by
  refine ⟨by decide, by decide, by decide, by decide⟩

/-- C8: `fix_url` is idempotent -- applying it to its own output
changes nothing, for every input string. -/
theorem claim_C8 (u : String) : fix_url (fix_url u) = fix_url u :=
  fix_url_idem_aux u

/-- C9: within one self post's body, the extraction loop of
`Snapshill.run` creates at most one archive container per distinct
normalized URL: the URLs of the produced containers are pairwise
distinct (duplicates are skipped via `finishedURLs`). -/
theorem claim_C9 (anchors : List Anchor) :
    ((extractLoop anchors [] []).1.map ArchiveContainer.url).Nodup :=
  extractLoop_nodup anchors [] [] (by simp) (by simp)

/-- C10: a recoverable wiki-fetch error during `Header.__init__` is
swallowed and leaves the text pool empty; `Header.get` is total,
returning the empty string exactly when the pool is empty and a member
of the pool otherwise. -/
theorem claim_C10 (fetch : WikiFetch) (choice : Nat) :
    Header.texts .recoverableError = [] ∧
      (Header.get (Header.texts fetch) choice = "" ↔ Header.texts fetch = []) ∧
      (Header.texts fetch ≠ [] →
        Header.get (Header.texts fetch) choice ∈ Header.texts fetch) := by
  refine ⟨rfl, ?_, fun h => Header_get_mem h choice⟩
  constructor
  · intro hget
    by_contra hne
    exact Header_texts_ne_empty _ (Header_get_mem hne choice) hget
  · intro hnil
    rw [hnil]
    rfl

/-- Witness for C10: a one-quote wiki page. -/
theorem claim_C10_witness :
    Header.texts (.ok "hello") ≠ [] ∧
      Header.get (Header.texts (.ok "hello")) 0 ∈ Header.texts (.ok "hello") :=
  ⟨by decide, (claim_C10 (.ok "hello") 0).2.2 (by decide)⟩

end Snapshill
